import Mathlib

/-!
Verification development for the `MetadataStore` component of a user-space
caching filesystem.  The definitions below are a shallow embedding of
`metadata_store.cpp` (`MetadataStore::get/put/updateAccessTime/markDirty`
over the SQLite `metadata` table, and the in-memory dirty-block bitmaps
with `markDirtyBlock`, `flushBitmaps`, `loadBitmap`, `persistBitmap`).

Modelling conventions:
* The SQLite `metadata` table is a finite map `path → row`; statement
  preparation failures (environment errors) are outside the model, so the
  table operations model the successful-prepare path.  `UPDATE ... WHERE
  path=?` on an absent key steps to `SQLITE_DONE` with zero rows changed,
  which the code reports as `true`.
* The bitmap files are a map `(hash_hex, part_idx) → byte list`; the path
  string produced by `bitmap_path(root, hash_hex, part_idx)` is injective
  in `(hash_hex, part_idx)`, so files are keyed by that pair directly.
* `open`/`write` failures in `persistBitmap` are modelled by a failure
  oracle `wfail hash_hex part_idx`; a failed persist leaves the file map
  unchanged.  `pread` on an existing file succeeds and returns
  `min(buffer size, file size)` bytes, the rest of the zero-initialised
  buffer staying zero.
* `std::map` / `std::vector<bool>` become ordered association lists /
  `List Bool`; `operator[]` default-constructs absent entries.
-/

namespace MetadataStore

/-- Columns of the `metadata` table other than the primary key `path`:
`local_path, size, timestamp, last_accessed, dirty` (schema from `init`). -/
structure RowData where
  local_path : String
  size : Int
  timestamp : Int
  last_accessed : Int
  dirty : Bool
deriving DecidableEq

/-- The `CacheMetadata` struct as used by the store: `path` plus the row
columns. -/
structure CacheMetadata where
  path : String
  local_path : String
  size : Int
  timestamp : Int
  last_accessed : Int
  dirty : Bool
deriving DecidableEq

/-- The `metadata` table, keyed by the primary key `path`. -/
abbrev Table := String → Option RowData

/-- `MetadataStore::get`: `SELECT local_path, size, timestamp, last_accessed,
dirty FROM metadata WHERE path=?`; a hit fills a `CacheMetadata` whose `path`
field is the query argument, a miss returns `nullopt`. -/
def get (tbl : Table) (path : String) : Option CacheMetadata :=
  (tbl path).map fun r =>
    ⟨path, r.local_path, r.size, r.timestamp, r.last_accessed, r.dirty⟩

/-- `MetadataStore::put`: `INSERT ... ON CONFLICT(path) DO UPDATE SET` all
non-key columns; returns whether the step reported `SQLITE_DONE`. -/
def put (tbl : Table) (meta : CacheMetadata) : Bool × Table :=
  (true, fun p =>
    if p = meta.path then
      some ⟨meta.local_path, meta.size, meta.timestamp, meta.last_accessed, meta.dirty⟩
    else tbl p)

/-- `MetadataStore::updateAccessTime`: `UPDATE metadata SET last_accessed=?
WHERE path=?`. -/
def updateAccessTime (tbl : Table) (path : String) (last_accessed : Int) :
    Bool × Table :=
  (true, fun p =>
    if p = path then (tbl p).map fun r => { r with last_accessed := last_accessed }
    else tbl p)

/-- `MetadataStore::markDirty`: `UPDATE metadata SET dirty=? WHERE path=?`. -/
def markDirty (tbl : Table) (path : String) (dirty : Bool) : Bool × Table :=
  (true, fun p =>
    if p = path then (tbl p).map fun r => { r with dirty := dirty }
    else tbl p)

/-- The source's `BitVec` alias (`std::vector<bool>`). -/
abbrev BitVec := List Bool

/-- Inner `std::map<std::size_t, BitVec>` of `bitmap_`. -/
abbrev PartMap := List (Nat × BitVec)

/-- The `bitmap_` member: `hash_hex → part_idx → bit vector`. -/
abbrev BitmapMap := List (String × PartMap)

/-- Lookup in an association list (`std::map::find`). -/
def findA {α β : Type} [DecidableEq α] (l : List (α × β)) (k : α) : Option β :=
  match l with
  | [] => none
  | (k', v) :: rest => if k' = k then some v else findA rest k

/-- Update-or-insert in an association list (`std::map::operator[]` followed
by assignment of `f` of the previous value). -/
def updA {α β : Type} [DecidableEq α] (l : List (α × β)) (k : α)
    (f : Option β → β) : List (α × β) :=
  match l with
  | [] => [(k, f none)]
  | (k', v) :: rest =>
      if k' = k then (k', f (some v)) :: rest else (k', v) :: updA rest k f

/-- Bitmap files on disk, keyed by `(hash_hex, part_idx)` (the arguments of
`bitmap_path`), holding the byte array written by `persistBitmap`. -/
abbrev FileSys := String × Nat → Option (List Nat)

/-- In-memory bitmaps plus the on-disk bitmap files. -/
structure State where
  bitmap : BitmapMap
  fsys : FileSys

/-- One step of the packing loop of `persistBitmap`:
`if (bits[i]) bytes[i/8] |= (1u << (i%8))`. -/
def orBit (acc : Nat) (g : Bool) (b : Nat) : Nat :=
  if g then acc ||| (1 <<< b) else acc

/-- Byte `j` produced by the packing loop of `persistBitmap`: the loop over
`i < bits.size()` touches byte `j` exactly for `i = 8*j + b`, `b < 8`
(indices past the end never occur, and `getD _ false` contributes nothing
for them). -/
def byteOf (bits : BitVec) (j : Nat) : Nat :=
  (List.range 8).foldl (fun acc b => orBit acc (bits.getD (8 * j + b) false) b) 0

/-- The packed byte array of `persistBitmap`: `(bits.size()+7)/8` bytes,
zero-initialised, then filled by the packing loop. -/
def packBytes (bits : BitVec) : List Nat :=
  (List.range ((bits.length + 7) / 8)).map (byteOf bits)

/-- `MetadataStore::persistBitmap`: skip empty vectors; otherwise write the
packed byte array to the bitmap file (create/truncate).  `wfail` models
`open`/short-`write` failure, in which case the file map is unchanged. -/
def persistBitmap (wfail : String → Nat → Bool) (fsys : FileSys)
    (hash_hex : String) (part_idx : Nat) (bits : BitVec) : Bool × FileSys :=
  if bits = [] then (true, fsys)
  else if wfail hash_hex part_idx then (false, fsys)
  else (true, fun k =>
    if k = (hash_hex, part_idx) then some (packBytes bits) else fsys k)

/-- Loop body of `flushBitmaps`: `ok &= persistBitmap(hash_hex, part_idx,
bits)` (`&=` does not short-circuit: every part is persisted). -/
def flushStep (wfail : String → Nat → Bool) (hash_hex : String)
    (acc : Bool × FileSys) (pb : Nat × BitVec) : Bool × FileSys :=
  let r1 := persistBitmap wfail acc.2 hash_hex pb.1 pb.2
  (acc.1 && r1.1, r1.2)

/-- `MetadataStore::flushBitmaps`: absent hash returns `true`; otherwise
run `flushStep` over every `(part_idx, bits)` entry of the object. -/
def flushBitmaps (wfail : String → Nat → Bool) (s : State) (hash_hex : String) :
    Bool × State :=
  match findA s.bitmap hash_hex with
  | none => (true, s)
  | some parts =>
      let r := parts.foldl (flushStep wfail hash_hex) (true, s.fsys)
      (r.1, { s with fsys := r.2 })

/-- `std::vector<bool>::resize(n, false)`: truncate to `n`, or extend with
`false` up to `n`. -/
def resizeVec (v : BitVec) (n : Nat) : BitVec :=
  v.take n ++ List.replicate (n - v.length) false

/-- `MetadataStore::markDirtyBlock`: `auto& vec = bitmap_[hash][part]`
(default-constructing absent entries), grow to `block_idx+1` if too short,
then set bit `block_idx`. -/
def markDirtyBlock (s : State) (hash_hex : String) (part_idx block_idx : Nat) :
    State :=
  { s with bitmap := updA s.bitmap hash_hex (fun po =>
      updA (po.getD []) part_idx (fun vo =>
        let vec := vo.getD []
        let vec := if vec.length ≤ block_idx then resizeVec vec (block_idx + 1) else vec
        vec.set block_idx true)) }

/-- Inner decode loop of `loadBitmap` for byte `i`:
`vec[i*8 + b] = bytes[i] & (1u << b)` for `b < 8`. -/
def writeByteBits (v : BitVec) (i : Nat) (byte : Nat) : BitVec :=
  (List.range 8).foldl (fun acc b => acc.set (i * 8 + b) (byte.testBit b)) v

/-- Outer decode loop of `loadBitmap`, over the bytes of the read buffer,
with `i` the current byte index. -/
def writeBits (v : BitVec) (bytes : List Nat) (i : Nat) : BitVec :=
  match bytes with
  | [] => v
  | byte :: rest => writeBits (writeByteBits v i byte) rest (i + 1)

/-- The in-memory bit vector of `(hash_hex, part_idx)`; absent entries read
as the empty (default-constructed) vector. -/
def getVec (bm : BitmapMap) (hash_hex : String) (part_idx : Nat) : BitVec :=
  (findA ((findA bm hash_hex).getD []) part_idx).getD []

/-- Bit `i` of the in-memory bit vector of `(hash_hex, part_idx)`; out of
range reads as `false`. -/
def getBit (bm : BitmapMap) (hash_hex : String) (part_idx i : Nat) : Bool :=
  (getVec bm hash_hex part_idx).getD i false

/-- The `pread` buffer of `loadBitmap` for a file with bytes `content`: a
zero-initialised buffer of `(file_size+7)/8` bytes whose first
`min(buffer size, file size)` bytes are read from the file, the rest
staying zero. -/
def readBuf (content : List Nat) : List Nat :=
  content.take ((content.length + 7) / 8) ++
    List.replicate ((content.length + 7) / 8
      - (content.take ((content.length + 7) / 8)).length) 0

/-- `MetadataStore::loadBitmap`: missing file returns `true` untouched;
otherwise allocate a zeroed buffer of `(file_size+7)/8` bytes, `pread` into
it, take `vec = bitmap_[hash][part]`, `vec.resize(bytes.size()*8, false)`,
and run the decode loop. -/
def loadBitmap (s : State) (hash_hex : String) (part_idx : Nat) : Bool × State :=
  match s.fsys (hash_hex, part_idx) with
  | none => (true, s)
  | some content =>
      let buf := readBuf content
      (true, { s with bitmap := updA s.bitmap hash_hex (fun po =>
          updA (po.getD []) part_idx (fun vo =>
            writeBits (resizeVec (vo.getD []) (buf.length * 8)) buf 0)) })

/-- Decoded bit sequence of a byte array under the layout
`bit i ↦ byte[i/8] & (1 << (i%8))`: the reference decoding that the
`loadBitmap` loop is compared against. -/
def unpackBytes : List Nat → BitVec
  | [] => []
  | byte :: rest => (List.range 8).map (fun b => byte.testBit b) ++ unpackBytes rest

/-! Association-list lemmas. -/

theorem findA_updA_self {α β : Type} [DecidableEq α] (l : List (α × β)) (k : α)
    (f : Option β → β) : findA (updA l k f) k = some (f (findA l k)) := by
  induction l with
  | nil => simp [findA, updA]
  | cons hd tl ih =>
      obtain ⟨k', v⟩ := hd
      by_cases h : k' = k
      · subst h; simp [findA, updA]
      · simp [findA, updA, h, ih]

theorem findA_updA_ne {α β : Type} [DecidableEq α] (l : List (α × β)) (k k'' : α)
    (f : Option β → β) (hne : k'' ≠ k) : findA (updA l k f) k'' = findA l k'' := by
  induction l with
  | nil => simp [findA, updA, Ne.symm hne]
  | cons hd tl ih =>
      obtain ⟨k', v⟩ := hd
      by_cases h : k' = k
      · subst h
        simp only [updA, if_pos rfl]
        simp [findA, Ne.symm hne]
      · simp [findA, updA, h, ih]

theorem getVec_updA_self (bm : BitmapMap) (hh : String) (p : Nat)
    (f : Option BitVec → BitVec) :
    getVec (updA bm hh (fun po => updA (po.getD []) p f)) hh p
      = f (findA ((findA bm hh).getD []) p) := by
  simp [getVec, findA_updA_self]

theorem getVec_updA_ne (bm : BitmapMap) (hh : String) (p : Nat)
    (f : Option BitVec → BitVec) (hh' : String) (p' : Nat)
    (hne : hh' ≠ hh ∨ p' ≠ p) :
    getVec (updA bm hh (fun po => updA (po.getD []) p f)) hh' p'
      = getVec bm hh' p' := by
  by_cases h1 : hh' = hh
  · subst h1
    have hp : p' ≠ p := hne.resolve_left (fun h => h rfl)
    simp [getVec, findA_updA_self, findA_updA_ne _ _ _ _ hp]
  · simp [getVec, findA_updA_ne _ _ _ _ h1]

/-! Vector lemmas. -/

theorem resizeVec_length (v : BitVec) (n : Nat) : (resizeVec v n).length = n := by
  simp [resizeVec]; omega

theorem resizeVec_getElem? (v : BitVec) (n j : Nat) :
    (resizeVec v n)[j]? = if j < n then some (v.getD j false) else none := by
  by_cases hj : j < n
  · rw [if_pos hj]
    by_cases hv : j < v.length
    · rw [resizeVec, List.getElem?_append_left (by simp; omega),
        List.getElem?_take_of_lt hj, List.getD_eq_getElem?_getD,
        List.getElem?_eq_getElem hv]
      rfl
    · rw [resizeVec, List.getElem?_append_right (by simp; omega),
        List.getD_eq_default v false (by omega),
        List.getElem?_replicate_of_lt (by simp; omega)]
  · rw [if_neg hj, List.getElem?_eq_none (by rw [resizeVec_length]; omega)]

theorem setList_length (bs : List Nat) (v : BitVec) (base byte : Nat) :
    (bs.foldl (fun acc b => acc.set (base + b) (byte.testBit b)) v).length
      = v.length := by
  induction bs generalizing v with
  | nil => rfl
  | cons b bs ih => rw [List.foldl_cons, ih, List.length_set]

theorem setList_getElem? (bs : List Nat) (v : BitVec) (base byte j : Nat) :
    (bs.foldl (fun acc b => acc.set (base + b) (byte.testBit b)) v)[j]? =
      if (∃ b, b ∈ bs ∧ j = base + b) ∧ j < v.length
      then some (byte.testBit (j - base)) else v[j]? := by
  induction bs generalizing v with
  | nil => simp
  | cons b bs ih =>
      rw [List.foldl_cons, ih, List.length_set]
      by_cases hA : (∃ b', b' ∈ bs ∧ j = base + b') ∧ j < v.length
      · rw [if_pos hA, if_pos ⟨⟨hA.1.choose, List.mem_cons_of_mem _ hA.1.choose_spec.1,
          hA.1.choose_spec.2⟩, hA.2⟩]
      · rw [if_neg hA]
        by_cases hB : j = base + b ∧ j < v.length
        · obtain ⟨hj1, hj2⟩ := hB
          subst hj1
          rw [List.getElem?_set_self (by omega)]
          rw [if_pos ⟨⟨b, List.mem_cons_self _ _, rfl⟩, hj2⟩]
          have hb : base + b - base = b := by omega
          rw [hb]
        · by_cases hbj : base + b = j
          · have hlen : v.length ≤ j := by
              rcases Nat.lt_or_ge j v.length with h | h
              · exact absurd ⟨hbj.symm, h⟩ hB
              · exact h
            rw [List.getElem?_eq_none (by rw [List.length_set]; omega),
              List.getElem?_eq_none hlen, if_neg (by rintro ⟨_, h⟩; omega)]
          · rw [List.getElem?_set_ne hbj]
            rw [if_neg]
            rintro ⟨⟨b', hb', hjb⟩, hjlen⟩
            rcases List.mem_cons.mp hb' with h | h
            · exact hbj (h ▸ hjb).symm
            · exact hA ⟨⟨b', h, hjb⟩, hjlen⟩

theorem writeByteBits_length (v : BitVec) (i byte : Nat) :
    (writeByteBits v i byte).length = v.length :=
  setList_length (List.range 8) v (i * 8) byte

theorem writeByteBits_getElem? (v : BitVec) (i byte j : Nat) :
    (writeByteBits v i byte)[j]? =
      if i * 8 ≤ j ∧ j < i * 8 + 8 ∧ j < v.length
      then some (byte.testBit (j - i * 8)) else v[j]? := by
  rw [writeByteBits, setList_getElem? (List.range 8) v (i * 8) byte j]
  by_cases hc : i * 8 ≤ j ∧ j < i * 8 + 8 ∧ j < v.length
  · rw [if_pos ⟨⟨j - i * 8, List.mem_range.mpr (by omega), by omega⟩, hc.2.2⟩,
      if_pos hc]
  · rw [if_neg, if_neg hc]
    rintro ⟨⟨b, hb, rfl⟩, hlen⟩
    exact hc ⟨by omega, by have := List.mem_range.mp hb; omega, hlen⟩

theorem writeBits_length (v : BitVec) (bytes : List Nat) (i : Nat) :
    (writeBits v bytes i).length = v.length := by
  induction bytes generalizing v i with
  | nil => rfl
  | cons byte rest ih => rw [writeBits, ih, writeByteBits_length]

theorem writeBits_getElem? (v : BitVec) (bytes : List Nat) (i0 j : Nat) :
    (writeBits v bytes i0)[j]? =
      if i0 * 8 ≤ j ∧ j < i0 * 8 + bytes.length * 8 ∧ j < v.length
      then some (Nat.testBit (bytes.getD ((j - i0 * 8) / 8) 0) ((j - i0 * 8) % 8))
      else v[j]? := by
  induction bytes generalizing v i0 with
  | nil =>
      rw [writeBits, if_neg]
      rintro ⟨h1, h2, h3⟩
      simp at h2
      omega
  | cons byte rest ih =>
      rw [writeBits, ih, writeByteBits_length]
      by_cases hA : (i0 + 1) * 8 ≤ j ∧ j < (i0 + 1) * 8 + rest.length * 8 ∧ j < v.length
      · rw [if_pos hA, if_pos (by simp; omega)]
        have h1 : (j - i0 * 8) / 8 = (j - (i0 + 1) * 8) / 8 + 1 := by omega
        have h2 : (j - i0 * 8) % 8 = (j - (i0 + 1) * 8) % 8 := by omega
        rw [h1, h2, List.getD_cons_succ]
      · rw [if_neg hA, writeByteBits_getElem?]
        by_cases hB : i0 * 8 ≤ j ∧ j < i0 * 8 + 8 ∧ j < v.length
        · rw [if_pos hB, if_pos (by simp; omega)]
          have h3 : (j - i0 * 8) / 8 = 0 := by omega
          have h4 : (j - i0 * 8) % 8 = j - i0 * 8 := by omega
          rw [h3, h4, List.getD_cons_zero]
        · rw [if_neg hB, if_neg (by simp; omega)]

theorem unpackBytes_getElem? (bytes : List Nat) (j : Nat) :
    (unpackBytes bytes)[j]? =
      if j < bytes.length * 8
      then some (Nat.testBit (bytes.getD (j / 8) 0) (j % 8)) else none := by
  induction bytes generalizing j with
  | nil => simp [unpackBytes]
  | cons byte rest ih =>
      rw [unpackBytes]
      by_cases hj : j < 8
      · rw [List.getElem?_append_left (by simp; omega), List.getElem?_map,
          List.getElem?_range hj, if_pos (by simp; omega)]
        have h1 : j / 8 = 0 := by omega
        have h2 : j % 8 = j := by omega
        rw [h1, h2, List.getD_cons_zero]
        rfl
      · rw [List.getElem?_append_right (by simp; omega)]
        have hlen : ((List.range 8).map (fun b => byte.testBit b)).length = 8 := by simp
        rw [hlen, ih]
        by_cases hc : j - 8 < rest.length * 8
        · rw [if_pos hc, if_pos (by simp; omega)]
          have h1 : j / 8 = (j - 8) / 8 + 1 := by omega
          have h2 : j % 8 = (j - 8) % 8 := by omega
          rw [h1, h2, List.getD_cons_succ]
        · rw [if_neg hc, if_neg (by simp; omega)]

theorem unpackBytes_length (bytes : List Nat) :
    (unpackBytes bytes).length = bytes.length * 8 := by
  induction bytes with
  | nil => rfl
  | cons byte rest ih => rw [unpackBytes]; simp [ih]; ring

theorem writeBits_resize_eq_unpack (bytes : List Nat) (v : BitVec) :
    writeBits (resizeVec v (bytes.length * 8)) bytes 0 = unpackBytes bytes := by
  apply List.ext_getElem?
  intro j
  rw [writeBits_getElem?, resizeVec_length, unpackBytes_getElem?]
  by_cases hj : j < bytes.length * 8
  · rw [if_pos (by omega), if_pos hj]
    have h1 : j - 0 * 8 = j := by omega
    rw [h1]
  · rw [if_neg (by omega), if_neg hj,
      List.getElem?_eq_none (by rw [resizeVec_length]; omega)]

/-! Packing lemmas. -/

theorem testBit_orBit (acc : Nat) (g : Bool) (b k : Nat) :
    Nat.testBit (orBit acc g b) k = (Nat.testBit acc k || (g && decide (b = k))) := by
  rw [orBit]
  cases g with
  | false => simp
  | true =>
      rw [if_pos rfl, Nat.testBit_or, Nat.shiftLeft_eq, one_mul]
      by_cases hbk : b = k
      · subst hbk
        simp [Nat.testBit_two_pow_self]
      · simp [Nat.testBit_two_pow_of_ne hbk, hbk]

theorem testBit_byteOf (bits : BitVec) (j k : Nat) (hk : k < 8) :
    Nat.testBit (byteOf bits j) k = bits.getD (8 * j + k) false := by
  have h8 : List.range 8 = [0, 1, 2, 3, 4, 5, 6, 7] := rfl
  rw [byteOf, h8]
  simp only [List.foldl_cons, List.foldl_nil]
  simp only [testBit_orBit, Nat.zero_testBit]
  interval_cases k <;> simp

theorem packBytes_length (bits : BitVec) :
    (packBytes bits).length = (bits.length + 7) / 8 := by
  simp [packBytes]

theorem packBytes_getD (bits : BitVec) (j : Nat) (hj : j < (bits.length + 7) / 8) :
    (packBytes bits).getD j 0 = byteOf bits j := by
  rw [packBytes, List.getD_eq_getElem?_getD, List.getElem?_map,
    List.getElem?_range hj]
  rfl

/-! Read-buffer lemmas. -/

theorem readBuf_length (c : List Nat) : (readBuf c).length = (c.length + 7) / 8 := by
  simp [readBuf]

theorem readBuf_getD (c : List Nat) (j : Nat) (hj : j < (c.length + 7) / 8) :
    (readBuf c).getD j 0 = c.getD j 0 := by
  rw [readBuf, List.getD_eq_getElem?_getD,
    List.getElem?_append_left (by simp; omega), List.getElem?_take_of_lt hj,
    ← List.getD_eq_getElem?_getD]

/-! Characterisations of `loadBitmap`. -/

theorem loadBitmap_none (s : State) (hh : String) (p : Nat)
    (h : s.fsys (hh, p) = none) : loadBitmap s hh p = (true, s) := by
  unfold loadBitmap
  rw [h]

theorem loadBitmap_found (s : State) (hh : String) (p : Nat) (content : List Nat)
    (h : s.fsys (hh, p) = some content) :
    loadBitmap s hh p = (true, { s with bitmap := updA s.bitmap hh (fun po =>
      updA (po.getD []) p (fun vo =>
        writeBits (resizeVec (vo.getD []) ((readBuf content).length * 8))
          (readBuf content) 0)) }) := by
  unfold loadBitmap
  rw [h]

theorem loadBitmap_found_getVec (s : State) (hh : String) (p : Nat)
    (content : List Nat) (h : s.fsys (hh, p) = some content) :
    getVec (loadBitmap s hh p).2.bitmap hh p = unpackBytes (readBuf content) := by
  rw [loadBitmap_found s hh p content h]
  have := getVec_updA_self s.bitmap hh p
    (fun vo => writeBits (resizeVec (vo.getD []) ((readBuf content).length * 8))
      (readBuf content) 0)
  rw [this]
  exact writeBits_resize_eq_unpack (readBuf content) _

theorem loadBitmap_fst (s : State) (hh : String) (p : Nat) :
    (loadBitmap s hh p).1 = true := by
  unfold loadBitmap
  split <;> rfl

/-! Characterisations of `persistBitmap` and `flushBitmaps`. -/

theorem persistBitmap_fst (wfail : String → Nat → Bool) (fsys : FileSys)
    (hh : String) (p : Nat) (bits : BitVec) :
    (persistBitmap wfail fsys hh p bits).1
      = (decide (bits = []) || !wfail hh p) := by
  rw [persistBitmap]
  by_cases h1 : bits = ([] : BitVec)
  · rw [if_pos h1]
    simp [h1]
  · rw [if_neg h1]
    by_cases h2 : wfail hh p
    · rw [if_pos h2]
      simp [h1, h2]
    · rw [if_neg h2]
      simp [h1, h2]

theorem persistBitmap_skip (wfail : String → Nat → Bool) (fsys : FileSys)
    (hh : String) (p : Nat) : persistBitmap wfail fsys hh p [] = (true, fsys) := by
  rw [persistBitmap, if_pos rfl]

theorem persistBitmap_write (wfail : String → Nat → Bool) (fsys : FileSys)
    (hh : String) (p : Nat) (bits : BitVec) (h1 : bits ≠ [])
    (h2 : wfail hh p = false) :
    persistBitmap wfail fsys hh p bits
      = (true, fun k => if k = (hh, p) then some (packBytes bits) else fsys k) := by
  rw [persistBitmap, if_neg h1, h2]
  rfl

theorem persistBitmap_snd_ne (wfail : String → Nat → Bool) (fsys : FileSys)
    (hh : String) (p : Nat) (bits : BitVec) (k : String × Nat)
    (hk : k ≠ (hh, p)) : (persistBitmap wfail fsys hh p bits).2 k = fsys k := by
  rw [persistBitmap]
  split_ifs <;> simp [hk]

theorem flushFold_fst (wfail : String → Nat → Bool) (hh : String)
    (parts : PartMap) (a : Bool) (fsys : FileSys) :
    (parts.foldl (flushStep wfail hh) (a, fsys)).1
      = (a && parts.all (fun pb => decide (pb.2 = []) || !wfail hh pb.1)) := by
  induction parts generalizing a fsys with
  | nil => simp
  | cons pb rest ih =>
      rw [List.foldl_cons,
        show flushStep wfail hh (a, fsys) pb
          = (a && (persistBitmap wfail fsys hh pb.1 pb.2).1,
             (persistBitmap wfail fsys hh pb.1 pb.2).2) from rfl,
        ih, persistBitmap_fst]
      simp [Bool.and_assoc]

theorem flushFold_fsys_other (wfail : String → Nat → Bool) (hh : String)
    (parts : PartMap) (a : Bool) (fsys : FileSys) (k : String × Nat)
    (hk : ∀ pb ∈ parts, k ≠ (hh, pb.1)) :
    (parts.foldl (flushStep wfail hh) (a, fsys)).2 k = fsys k := by
  induction parts generalizing a fsys with
  | nil => rfl
  | cons pb rest ih =>
      rw [List.foldl_cons,
        show flushStep wfail hh (a, fsys) pb
          = (a && (persistBitmap wfail fsys hh pb.1 pb.2).1,
             (persistBitmap wfail fsys hh pb.1 pb.2).2) from rfl,
        ih _ _ (fun pb' h' => hk pb' (List.mem_cons_of_mem _ h'))]
      exact persistBitmap_snd_ne _ _ _ _ _ _ (hk pb (List.mem_cons_self _ _))

theorem flushFold_fsys_mem (wfail : String → Nat → Bool) (hh : String)
    (parts : PartMap) (a : Bool) (fsys : FileSys) (p : Nat) (bits : BitVec)
    (hnd : (parts.map Prod.fst).Nodup) (hmem : (p, bits) ∈ parts)
    (hbits : bits ≠ []) (hw : wfail hh p = false) :
    (parts.foldl (flushStep wfail hh) (a, fsys)).2 (hh, p)
      = some (packBytes bits) := by
  induction parts generalizing a fsys with
  | nil => cases hmem
  | cons pb rest ih =>
      rw [List.map_cons, List.nodup_cons] at hnd
      rcases List.mem_cons.mp hmem with heq | hmem'
      · subst heq
        rw [List.foldl_cons,
          show flushStep wfail hh (a, fsys) (p, bits)
            = (a && (persistBitmap wfail fsys hh p bits).1,
               (persistBitmap wfail fsys hh p bits).2) from rfl,
          persistBitmap_write wfail fsys hh p bits hbits hw]
        rw [flushFold_fsys_other wfail hh rest _ _ (hh, p) (fun pb' h' hk => by
          have hp : p = pb'.1 := congrArg Prod.snd hk
          have h2 : pb'.1 ∈ List.map Prod.fst rest :=
            List.mem_map_of_mem Prod.fst h'
          rw [← hp] at h2
          exact hnd.1 h2)]
        simp
      · have hp1 : pb.1 ≠ p := by
          intro hpp
          apply hnd.1
          rw [hpp]
          exact List.mem_map_of_mem Prod.fst hmem'
        rw [List.foldl_cons]
        exact ih _ _ hnd.2 hmem'

theorem flushFold_empty (wfail : String → Nat → Bool) (hh : String)
    (parts : PartMap) (a : Bool) (fsys : FileSys)
    (h : ∀ pb ∈ parts, pb.2 = ([] : BitVec)) :
    parts.foldl (flushStep wfail hh) (a, fsys) = (a, fsys) := by
  induction parts generalizing a fsys with
  | nil => rfl
  | cons pb rest ih =>
      rw [List.foldl_cons,
        show flushStep wfail hh (a, fsys) pb
          = (a && (persistBitmap wfail fsys hh pb.1 pb.2).1,
             (persistBitmap wfail fsys hh pb.1 pb.2).2) from rfl,
        h pb (List.mem_cons_self _ _), persistBitmap_skip, Bool.and_true]
      exact ih _ _ (fun pb' h' => h pb' (List.mem_cons_of_mem _ h'))

theorem flushBitmaps_bitmap (wfail : String → Nat → Bool) (s : State)
    (hh : String) : (flushBitmaps wfail s hh).2.bitmap = s.bitmap := by
  unfold flushBitmaps
  split <;> rfl

theorem flushBitmaps_found (wfail : String → Nat → Bool) (s : State)
    (hh : String) (parts : PartMap) (hparts : findA s.bitmap hh = some parts) :
    flushBitmaps wfail s hh
      = ((parts.foldl (flushStep wfail hh) (true, s.fsys)).1,
         { s with fsys := (parts.foldl (flushStep wfail hh) (true, s.fsys)).2 }) := by
  unfold flushBitmaps
  rw [hparts]

theorem flushBitmaps_fst_iff (wfail : String → Nat → Bool) (s : State)
    (hh : String) :
    (flushBitmaps wfail s hh).1 = true ↔
      ∀ pb ∈ (findA s.bitmap hh).getD [],
        (persistBitmap wfail s.fsys hh pb.1 pb.2).1 = true := by
  cases hfa : findA s.bitmap hh with
  | none =>
      unfold flushBitmaps
      rw [hfa]
      simp
  | some parts =>
      unfold flushBitmaps
      rw [hfa]
      show (parts.foldl (flushStep wfail hh) (true, s.fsys)).1 = true ↔ _
      rw [flushFold_fst, Bool.true_and, List.all_eq_true]
      simp only [Option.getD_some, persistBitmap_fst]

/-! Characterisations of `markDirtyBlock`. -/

theorem markDirtyBlock_getVec_self (s : State) (hh : String) (p i : Nat) :
    getVec (markDirtyBlock s hh p i).bitmap hh p
      = (if (getVec s.bitmap hh p).length ≤ i
         then resizeVec (getVec s.bitmap hh p) (i + 1)
         else getVec s.bitmap hh p).set i true := by
  simp only [markDirtyBlock]
  rw [getVec_updA_self]
  rfl

theorem markDirtyBlock_getVec_ne (s : State) (hh : String) (p i : Nat)
    (hh' : String) (p' : Nat) (hne : hh' ≠ hh ∨ p' ≠ p) :
    getVec (markDirtyBlock s hh p i).bitmap hh' p' = getVec s.bitmap hh' p' := by
  simp only [markDirtyBlock]
  rw [getVec_updA_ne _ _ _ _ _ _ hne]

/-! Claim theorems. -/

/-- C2: when a non-empty bitmap of `n` blocks is persisted, the on-disk byte
array has length `⌈n/8⌉` and bit `i` is stored in `byte[i/8]` at bit position
`i%8`: `byte[i/8] & (1 << (i%8))` is non-zero iff bit `i` is set. -/
theorem C2_persist_packed_layout (wfail : String → Nat → Bool) (fsys : FileSys)
    (hh : String) (p : Nat) (bits : BitVec) (h1 : bits ≠ [])
    (h2 : wfail hh p = false) :
    (persistBitmap wfail fsys hh p bits).1 = true ∧
    (persistBitmap wfail fsys hh p bits).2 (hh, p) = some (packBytes bits) ∧
    (packBytes bits).length = (bits.length + 7) / 8 ∧
    ∀ i, i < bits.length →
      ((((packBytes bits).getD (i / 8) 0) &&& (1 <<< (i % 8)) ≠ 0)
        ↔ bits.getD i false = true) := by
  refine ⟨?_, ?_, packBytes_length bits, ?_⟩
  · rw [persistBitmap_write wfail fsys hh p bits h1 h2]
  · rw [persistBitmap_write wfail fsys hh p bits h1 h2]
    simp
  · intro i hi
    rw [packBytes_getD _ _ (by omega), Nat.shiftLeft_eq, one_mul,
      Nat.and_two_pow, testBit_byteOf _ _ _ (by omega)]
    have he : 8 * (i / 8) + i % 8 = i := by omega
    rw [he]
    cases hb : bits.getD i false <;> simp

/-- C2 witness: the packed layout at a concrete bitmap. -/
theorem C2_witness :
    (persistBitmap (fun _ _ => false) (fun _ => none) "a" 0 [true, false, true]).1
        = true ∧
    (persistBitmap (fun _ _ => false) (fun _ => none) "a" 0
        [true, false, true]).2 ("a", 0) = some (packBytes [true, false, true]) ∧
    (packBytes [true, false, true]).length
        = (([true, false, true] : BitVec).length + 7) / 8 ∧
    ∀ i, i < ([true, false, true] : BitVec).length →
      ((((packBytes [true, false, true]).getD (i / 8) 0) &&& (1 <<< (i % 8)) ≠ 0)
        ↔ ([true, false, true] : BitVec).getD i false = true) :=
  C2_persist_packed_layout (fun _ _ => false) (fun _ => none) "a" 0
    [true, false, true] (by decide) rfl

/-- C3: if `flushBitmaps` reports a persistence failure (returns `false`),
the in-memory bitmap of the object is left unchanged. -/
theorem C3_failed_flush_preserves_bitmap (wfail : String → Nat → Bool)
    (s : State) (hh : String) (hfail : (flushBitmaps wfail s hh).1 = false) :
    (flushBitmaps wfail s hh).2.bitmap = s.bitmap :=
  flushBitmaps_bitmap wfail s hh

/-- C3 witness: a flush where every write fails returns `false` and leaves
the in-memory bitmap intact. -/
theorem C3_witness :
    (flushBitmaps (fun _ _ => true)
        ⟨[("h", [(1, [true])])], fun _ => none⟩ "h").1 = false ∧
    (flushBitmaps (fun _ _ => true)
        ⟨[("h", [(1, [true])])], fun _ => none⟩ "h").2.bitmap
      = [("h", [(1, [true])])] :=
  ⟨by decide, C3_failed_flush_preserves_bitmap (fun _ _ => true)
    ⟨[("h", [(1, [true])])], fun _ => none⟩ "h" (by decide)⟩

/-- C4: `updateAccessTime` and `markDirty` on a path that has no row return
success and leave the table unchanged. -/
theorem C4_update_absent_noop (tbl : Table) (path : String) (t : Int) (d : Bool)
    (habs : tbl path = none) :
    (updateAccessTime tbl path t).1 = true ∧
    (updateAccessTime tbl path t).2 = tbl ∧
    (markDirty tbl path d).1 = true ∧
    (markDirty tbl path d).2 = tbl := by
  refine ⟨rfl, funext (fun p => ?_), rfl, funext (fun p => ?_)⟩
  · show (if p = path
        then (tbl p).map (fun r => { r with last_accessed := t })
        else tbl p) = tbl p
    by_cases hp : p = path
    · rw [if_pos hp, hp, habs]
      rfl
    · rw [if_neg hp]
  · show (if p = path
        then (tbl p).map (fun r => { r with dirty := d })
        else tbl p) = tbl p
    by_cases hp : p = path
    · rw [if_pos hp, hp, habs]
      rfl
    · rw [if_neg hp]

/-- C4 witness: updating a missing path in the empty table. -/
theorem C4_witness :
    (updateAccessTime (fun _ => none) "q" 5).1 = true ∧
    (updateAccessTime (fun _ => none) "q" 5).2 = (fun _ => none : Table) ∧
    (markDirty (fun _ => none) "q" true).1 = true ∧
    (markDirty (fun _ => none) "q" true).2 = (fun _ => none : Table) :=
  C4_update_absent_noop (fun _ => none) "q" 5 true rfl

/-- C5: `flushBitmaps` returns `true` iff persisting succeeded for every part
of the object that has an in-memory bitmap. -/
theorem C5_flush_true_iff_all_parts (wfail : String → Nat → Bool) (s : State)
    (hh : String) :
    (flushBitmaps wfail s hh).1 = true ↔
      ∀ pb ∈ (findA s.bitmap hh).getD [],
        (persistBitmap wfail s.fsys hh pb.1 pb.2).1 = true :=
  flushBitmaps_fst_iff wfail s hh

/-- C6: `loadBitmap` on a missing bitmap file returns success and leaves the
state unchanged (no dirty bits for that part). -/
theorem C6_load_missing_file_noop (s : State) (hh : String) (p : Nat)
    (h : s.fsys (hh, p) = none) : loadBitmap s hh p = (true, s) :=
  loadBitmap_none s hh p h

/-- C6 witness: loading from an empty filesystem. -/
theorem C6_witness :
    loadBitmap ⟨[], fun _ => none⟩ "h" 0 = (true, ⟨[], fun _ => none⟩) :=
  C6_load_missing_file_noop ⟨[], fun _ => none⟩ "h" 0 rfl

/-- C7: `put` is an upsert keyed by `path`: after `put(row)`, `get(row.path)`
returns a row with the same non-key fields, and every other path is
unchanged. -/
theorem C7_put_upsert (tbl : Table) (meta : CacheMetadata) :
    (put tbl meta).1 = true ∧
    get (put tbl meta).2 meta.path
      = some ⟨meta.path, meta.local_path, meta.size, meta.timestamp,
              meta.last_accessed, meta.dirty⟩ ∧
    ∀ p, p ≠ meta.path → get (put tbl meta).2 p = get tbl p := by
  refine ⟨rfl, ?_, ?_⟩
  · show ((put tbl meta).2 meta.path).map _ = _
    show (if meta.path = meta.path
        then some ⟨meta.local_path, meta.size, meta.timestamp,
                   meta.last_accessed, meta.dirty⟩
        else tbl meta.path).map _ = _
    rw [if_pos rfl]
    rfl
  · intro p hp
    show ((put tbl meta).2 p).map _ = (tbl p).map _
    show (if p = meta.path
        then some ⟨meta.local_path, meta.size, meta.timestamp,
                   meta.last_accessed, meta.dirty⟩
        else tbl p).map _ = (tbl p).map _
    rw [if_neg hp]

/-- C7 witness: an insert into the empty table followed by lookups. -/
theorem C7_witness :
    get (put (fun _ => none) ⟨"a", "lp", 3, 4, 5, true⟩).2 "a"
      = some ⟨"a", "lp", 3, 4, 5, true⟩ ∧
    get (put (fun _ => none) ⟨"a", "lp", 3, 4, 5, true⟩).2 "b"
      = get (fun _ => none : Table) "b" :=
  ⟨(C7_put_upsert (fun _ => none) ⟨"a", "lp", 3, 4, 5, true⟩).2.1,
   (C7_put_upsert (fun _ => none) ⟨"a", "lp", 3, 4, 5, true⟩).2.2 "b" (by decide)⟩

/-- C1: after a successful `flushBitmaps(hash_hex)`, `loadBitmap(hash_hex,
part_idx)` for a part whose in-memory bitmap is non-empty reconstructs a bit
vector that agrees bit for bit with the persisted in-memory vector on the
common prefix of defined blocks. -/
theorem C1_flush_load_roundtrip (wfail : String → Nat → Bool) (s : State)
    (hh : String) (p : Nat) (parts : PartMap) (bits : BitVec)
    (hparts : findA s.bitmap hh = some parts)
    (hnd : (parts.map Prod.fst).Nodup)
    (hmem : (p, bits) ∈ parts)
    (hbits : bits ≠ [])
    (hok : (flushBitmaps wfail s hh).1 = true) :
    (loadBitmap (flushBitmaps wfail s hh).2 hh p).1 = true ∧
    ∀ i, i < bits.length →
      i < (getVec (loadBitmap (flushBitmaps wfail s hh).2 hh p).2.bitmap hh p).length →
      getBit (loadBitmap (flushBitmaps wfail s hh).2 hh p).2.bitmap hh p i
        = bits.getD i false := by
  have hall := (flushBitmaps_fst_iff wfail s hh).mp hok
  have hp1 : (persistBitmap wfail s.fsys hh p bits).1 = true :=
    hall (p, bits) (by rw [hparts]; exact hmem)
  rw [persistBitmap_fst] at hp1
  have hw : wfail hh p = false := by simpa [hbits] using hp1
  have hfs : (flushBitmaps wfail s hh).2.fsys (hh, p) = some (packBytes bits) := by
    rw [flushBitmaps_found wfail s hh parts hparts]
    exact flushFold_fsys_mem wfail hh parts true s.fsys p bits hnd hmem hbits hw
  refine ⟨loadBitmap_fst _ hh p, ?_⟩
  intro i hi hlen
  rw [loadBitmap_found_getVec _ hh p _ hfs] at hlen
  rw [getBit, loadBitmap_found_getVec _ hh p _ hfs]
  rw [unpackBytes_length, readBuf_length, packBytes_length] at hlen
  rw [List.getD_eq_getElem?_getD, unpackBytes_getElem?,
    if_pos (by rw [readBuf_length, packBytes_length]; omega)]
  rw [Option.getD_some, readBuf_getD _ _ (by rw [packBytes_length]; omega),
    packBytes_getD _ _ (by omega), testBit_byteOf _ _ _ (by omega)]
  have he : 8 * (i / 8) + i % 8 = i := by omega
  rw [he]

/-- C1 witness: round-trip of a concrete three-bit bitmap. -/
theorem C1_witness :
    (loadBitmap (flushBitmaps (fun _ _ => false)
        ⟨[("h", [(0, [true, false, true])])], fun _ => none⟩ "h").2 "h" 0).1
      = true ∧
    ∀ i, i < ([true, false, true] : BitVec).length →
      i < (getVec (loadBitmap (flushBitmaps (fun _ _ => false)
            ⟨[("h", [(0, [true, false, true])])], fun _ => none⟩ "h").2
            "h" 0).2.bitmap "h" 0).length →
      getBit (loadBitmap (flushBitmaps (fun _ _ => false)
          ⟨[("h", [(0, [true, false, true])])], fun _ => none⟩ "h").2
          "h" 0).2.bitmap "h" 0 i
        = ([true, false, true] : BitVec).getD i false :=
  C1_flush_load_roundtrip (fun _ _ => false)
    ⟨[("h", [(0, [true, false, true])])], fun _ => none⟩ "h" 0
    [(0, [true, false, true])] [true, false, true]
    (by decide) (by decide) (by decide) (by decide) (by decide)

/-- C8: `markDirtyBlock(hash_hex, part_idx, block_idx)` sets bit `block_idx`
of that part's vector, auto-growing the vector with zero bits to length
`block_idx+1` when it is shorter, and changes no other bit of any bitmap. -/
theorem C8_mark_dirty_block (s : State) (hh : String) (p i : Nat) :
    getBit (markDirtyBlock s hh p i).bitmap hh p i = true ∧
    (getVec (markDirtyBlock s hh p i).bitmap hh p).length
      = max (getVec s.bitmap hh p).length (i + 1) ∧
    ∀ hh' p' i', (hh' ≠ hh ∨ p' ≠ p ∨ i' ≠ i) →
      getBit (markDirtyBlock s hh p i).bitmap hh' p' i'
        = getBit s.bitmap hh' p' i' := by
  have hlen : (if (getVec s.bitmap hh p).length ≤ i
      then resizeVec (getVec s.bitmap hh p) (i + 1)
      else getVec s.bitmap hh p).length
        = max (getVec s.bitmap hh p).length (i + 1) := by
    split_ifs with h
    · rw [resizeVec_length]
      omega
    · omega
  refine ⟨?_, ?_, ?_⟩
  · rw [getBit, markDirtyBlock_getVec_self, List.getD_eq_getElem?_getD,
      List.getElem?_set_self (by rw [hlen]; omega)]
    rfl
  · rw [markDirtyBlock_getVec_self, List.length_set, hlen]
  · intro hh' p' i' hne
    by_cases h1 : hh' = hh
    · subst h1
      by_cases h2 : p' = p
      · subst h2
        have hi : i' ≠ i := by tauto
        rw [getBit, getBit, markDirtyBlock_getVec_self,
          List.getD_eq_getElem?_getD, List.getElem?_set_ne (Ne.symm hi)]
        split_ifs with h
        · rw [resizeVec_getElem?]
          by_cases h3 : i' < i + 1
          · rw [if_pos h3]
            rfl
          · rw [if_neg h3, List.getD_eq_default _ _ (by omega)]
            rfl
        · rw [← List.getD_eq_getElem?_getD]
      · rw [getBit, getBit, markDirtyBlock_getVec_ne _ _ _ _ _ _ (Or.inr h2)]
    · rw [getBit, getBit, markDirtyBlock_getVec_ne _ _ _ _ _ _ (Or.inl h1)]

/-- C8 witness: setting bit 5 of an absent vector. -/
theorem C8_witness :
    getBit (markDirtyBlock ⟨[("h", [(0, [true])])], fun _ => none⟩ "h" 0 5).bitmap
        "h" 0 5 = true ∧
    (getVec (markDirtyBlock ⟨[("h", [(0, [true])])], fun _ => none⟩ "h" 0 5).bitmap
        "h" 0).length
      = max (getVec [("h", [(0, [true])])] "h" 0).length (5 + 1) ∧
    getBit (markDirtyBlock ⟨[("h", [(0, [true])])], fun _ => none⟩ "h" 0 5).bitmap
        "h" 0 3 = getBit [("h", [(0, [true])])] "h" 0 3 :=
  ⟨(C8_mark_dirty_block ⟨[("h", [(0, [true])])], fun _ => none⟩ "h" 0 5).1,
   (C8_mark_dirty_block ⟨[("h", [(0, [true])])], fun _ => none⟩ "h" 0 5).2.1,
   (C8_mark_dirty_block ⟨[("h", [(0, [true])])], fun _ => none⟩ "h" 0 5).2.2
     "h" 0 3 (by decide)⟩

/-- C9: a successful `loadBitmap` on an existing file replaces the in-memory
vector with exactly the bits decoded from the allocated read buffer; bits
previously set at indices beyond the decoded length are discarded. -/
theorem C9_load_replaces (s : State) (hh : String) (p : Nat)
    (content : List Nat) (h : s.fsys (hh, p) = some content) :
    (loadBitmap s hh p).1 = true ∧
    getVec (loadBitmap s hh p).2.bitmap hh p = unpackBytes (readBuf content) ∧
    ∀ i, (readBuf content).length * 8 ≤ i →
      getBit (loadBitmap s hh p).2.bitmap hh p i = false := by
  refine ⟨loadBitmap_fst s hh p, loadBitmap_found_getVec s hh p content h, ?_⟩
  intro i hi
  rw [readBuf_length] at hi
  rw [getBit, loadBitmap_found_getVec s hh p content h,
    List.getD_eq_default _ _ (by rw [unpackBytes_length, readBuf_length]; omega)]

/-- C9 witness: loading a one-byte file over a ten-bit in-memory vector
replaces it, discarding the bit at index 9. -/
theorem C9_witness :
    (loadBitmap ⟨[("h", [(0, [true, true, true, true, true, true, true, true,
        true, true])])], fun k => if k = ("h", 0) then some [5] else none⟩
        "h" 0).1 = true ∧
    getVec (loadBitmap ⟨[("h", [(0, [true, true, true, true, true, true, true,
        true, true, true])])], fun k => if k = ("h", 0) then some [5] else none⟩
        "h" 0).2.bitmap "h" 0 = unpackBytes (readBuf [5]) ∧
    getBit (loadBitmap ⟨[("h", [(0, [true, true, true, true, true, true, true,
        true, true, true])])], fun k => if k = ("h", 0) then some [5] else none⟩
        "h" 0).2.bitmap "h" 0 9 = false :=
  ⟨(C9_load_replaces _ "h" 0 [5] (by decide)).1,
   (C9_load_replaces _ "h" 0 [5] (by decide)).2.1,
   (C9_load_replaces ⟨[("h", [(0, [true, true, true, true, true, true, true,
        true, true, true])])], fun k => if k = ("h", 0) then some [5] else none⟩
        "h" 0 [5] (by decide)).2.2 9 (by decide)⟩

/-- C10: `flushBitmaps` returns `true` and writes no bitmap file when the
object has no in-memory entry or when every part vector is empty; an empty
part vector is skipped by `persistBitmap` and reported as success. -/
theorem C10_flush_skips_empty (wfail : String → Nat → Bool) (s : State)
    (hh : String) (fsys : FileSys) (p : Nat) :
    (findA s.bitmap hh = none → flushBitmaps wfail s hh = (true, s)) ∧
    ((∀ pb ∈ (findA s.bitmap hh).getD [], pb.2 = ([] : BitVec)) →
      flushBitmaps wfail s hh = (true, s)) ∧
    persistBitmap wfail fsys hh p [] = (true, fsys) := by
  refine ⟨?_, ?_, persistBitmap_skip wfail fsys hh p⟩
  · intro h
    unfold flushBitmaps
    rw [h]
  · intro h
    cases hfa : findA s.bitmap hh with
    | none =>
        unfold flushBitmaps
        rw [hfa]
    | some parts =>
        unfold flushBitmaps
        rw [hfa]
        show ((parts.foldl (flushStep wfail hh) (true, s.fsys)).1,
              { s with fsys := (parts.foldl (flushStep wfail hh) (true, s.fsys)).2 })
            = (true, s)
        rw [flushFold_empty wfail hh parts true s.fsys
          (fun pb hpb => h pb (by rw [hfa]; exact hpb))]

/-- C10 witness: flushing an object whose parts are all empty, with a failure
oracle that would fail every write, still succeeds and writes nothing. -/
theorem C10_witness :
    flushBitmaps (fun _ _ => true)
        ⟨[("h", [(0, []), (2, [])])], fun _ => none⟩ "h"
      = (true, ⟨[("h", [(0, []), (2, [])])], fun _ => none⟩) ∧
    persistBitmap (fun _ _ => true) (fun _ => none) "h" 0 []
      = (true, fun _ => none) :=
  ⟨(C10_flush_skips_empty (fun _ _ => true)
      ⟨[("h", [(0, []), (2, [])])], fun _ => none⟩ "h" (fun _ => none) 0).2.1
      (by decide),
   (C10_flush_skips_empty (fun _ _ => true)
      ⟨[("h", [(0, []), (2, [])])], fun _ => none⟩ "h" (fun _ => none) 0).2.2⟩

end MetadataStore
